import Mathlib

/-!
Formal model of the qiskit-dynamics core: signals, rotating frames,
generator/Hamiltonian models and the ODE-driver entry point.

The repository's `src` tree contains the test suite
(`test/dynamics/models/test_hamiltonian_model.py`,
`test/dynamics/test_solve_ode.py`) and the package re-export file
`qiskit_dynamics/signals/__init__.py`; the implementation modules
(`signals/signals.py`, the `models` package, the solver entry point) are
not present.  Following the specification, the missing operations are
modelled here from the spec's description, with the in-repo tests fixing
the behaviour wherever the spec text is ambiguous.

Complex square matrices stand for the numeric arrays of the source; the
Hermitian eigendecomposition routine (`eigh`) is an out-of-scope backend
collaborator (spec section 6), so a rotating frame is built directly from
the decomposition data that routine would produce.
-/

noncomputable section

open Matrix

/-- Square complex matrices of dimension `n`, the numeric array type of the
models. -/
abbrev Mat (n : ℕ) := Matrix (Fin n) (Fin n) ℂ

/-- Modelled from the spec: the `Signal` data model (spec section 3) of the
absent module `signals/signals.py`: an envelope function, a carrier
frequency and a phase. -/
structure Signal where
  envelope : ℝ → ℂ
  carrier_freq : ℝ
  phase : ℝ

/-- Modelled from the spec: the carrier-modulated complex value
`envelope(t) · exp(i·(2π·freq·t + phase))` (spec section 4.1, complex
exponential variant of the carrier). -/
def Signal.complex_value (s : Signal) (t : ℝ) : ℂ :=
  s.envelope t * Complex.exp (((2 * Real.pi * s.carrier_freq * t + s.phase : ℝ) : ℂ) * Complex.I)

/-- Modelled from the spec and the tests: the evaluated (real) signal value,
the real part of `complex_value`; the test `_test_evaluate_generator`
checks the evaluated coefficient of a complex constant envelope against
`Re(coeff · exp(i(2π·f·t + φ)))`.  For a real envelope this is
`envelope(t) · cos(2π·f·t + φ)`. -/
def Signal.value (s : Signal) (t : ℝ) : ℝ :=
  (s.complex_value t).re

/-- Modelled from the spec (section 4.3): an ordered list of signals. -/
abbrev SignalList := List Signal

/-- Modelled from the spec (section 4.3): evaluate each component signal at
`t`, returned in the caller-supplied order (no re-sorting, no
deduplication). -/
def SignalList.values (sl : SignalList) (t : ℝ) : List ℝ :=
  sl.map (fun s => s.value t)

/-- Modelled from the spec (sections 3 and 4.4): a rotating frame stores the
eigendecomposition data of the Hermitian operator `H` defining the frame
operator `F = -i·H`: `frame_diag` holds eigenvalues of `H` in the order
produced by the diagonalization routine, `frame_basis` the matrix of
eigenvectors.  The Hermitian eigendecomposition (`eigh`) is the
numeric-backend collaborator (spec section 6), so a frame is built from
that routine's output. -/
structure RotatingFrame (n : ℕ) where
  frame_diag : Fin n → ℝ
  frame_basis : Mat n

/-- Modelled from the spec (section 4.4): a 1-D vector is treated as an
already-diagonal Hermitian frame: its values are used directly as
`frame_diag` and the identity as `frame_basis`. -/
def RotatingFrame.ofDiag {n : ℕ} (v : Fin n → ℝ) : RotatingFrame n :=
  ⟨v, 1⟩

/-- The time-dependent rotation `exp(-F·t) = exp(i·H·t)` expressed in the
frame eigenbasis: the elementwise exponential `exp(i·d_k·t)` of the frame
eigenvalues, never a dense matrix exponential (spec section 4.4). -/
def RotatingFrame.rotation_diag {n : ℕ} (f : RotatingFrame n) (t : ℝ) : Mat n :=
  Matrix.diagonal (fun k => Complex.exp (Complex.I * ((f.frame_diag k : ℝ) : ℂ) * ((t : ℝ) : ℂ)))

/-- The frame operator `F = -i·H` expressed in the frame eigenbasis: the
diagonal matrix of `-i·d_k`. -/
def RotatingFrame.frame_diag_matrix {n : ℕ} (f : RotatingFrame n) : Mat n :=
  Matrix.diagonal (fun k => -Complex.I * ((f.frame_diag k : ℝ) : ℂ))

/-- Modelled from the spec (section 4.4):
`generator_into_frame_basis(M) = frame_basis† · M · frame_basis`, an
identity passthrough for the trivial frame. -/
def generator_into_frame_basis {n : ℕ} : Option (RotatingFrame n) → Mat n → Mat n
  | none, M => M
  | some f, M => f.frame_basisᴴ * M * f.frame_basis

/-- Modelled from the spec (section 4.4): the inverse conjugation
`frame_basis · M · frame_basis†`, an identity passthrough for the trivial
frame. -/
def generator_out_of_frame_basis {n : ℕ} : Option (RotatingFrame n) → Mat n → Mat n
  | none, M => M
  | some f, M => f.frame_basis * M * f.frame_basisᴴ

/-- Modelled from the spec (section 4.4) and the tests: the rotating-frame
transform of a generator.  In the frame eigenbasis the generator is
conjugated by the elementwise rotation and the frame operator is
subtracted, implementing `d/dt (U†y) = (U†·G·U - F)·(U†y)` with
`U(t) = exp(F·t)` (the spec's rationale formula; the tests
`_basic_frame_evaluate_generator_test` and `_test_evaluate_generator` pin
this conjugation direction, `exp(i·H·t)·G·exp(-i·H·t) - F`).  The input is
first moved into the eigenbasis unless `operator_in_frame_basis`, and the
result moved back out unless `return_in_frame_basis`; the trivial frame is
an identity passthrough. -/
def generator_into_frame {n : ℕ} (fr : Option (RotatingFrame n)) (G : Mat n) (t : ℝ)
    (operator_in_frame_basis : Bool) (return_in_frame_basis : Bool) : Mat n :=
  match fr with
  | none => G
  | some f =>
    let Gfb := if operator_in_frame_basis then G else f.frame_basisᴴ * G * f.frame_basis
    let R := f.rotation_diag t * Gfb * (f.rotation_diag t)ᴴ - f.frame_diag_matrix
    if return_in_frame_basis then R else f.frame_basis * R * f.frame_basisᴴ

/-- Modelled from the spec (sections 3 and 4.5): a generator model: operator
list, optional drift, matching signal list, optional rotating frame, and
the frame-basis operator cache (`operators_in_frame_basis`,
`drift_in_frame_basis`) recomputed on every frame assignment. -/
structure GeneratorModel (n m : ℕ) where
  operators : Fin m → Mat n
  drift : Option (Mat n)
  signals : Fin m → Signal
  rotating_frame : Option (RotatingFrame n)
  operators_in_frame_basis : Fin m → Mat n
  drift_in_frame_basis : Option (Mat n)

/-- Modelled from the spec (section 4.5): construction populates the
frame-basis cache from the supplied operators, drift and frame. -/
def mkGeneratorModel {n m : ℕ} (operators : Fin m → Mat n) (drift : Option (Mat n))
    (signals : Fin m → Signal) (rotating_frame : Option (RotatingFrame n)) :
    GeneratorModel n m :=
  { operators := operators
    drift := drift
    signals := signals
    rotating_frame := rotating_frame
    operators_in_frame_basis := fun i => generator_into_frame_basis rotating_frame (operators i)
    drift_in_frame_basis := drift.map (generator_into_frame_basis rotating_frame) }

/-- Modelled from the spec (sections 4.5 and 9): the `rotating_frame` setter
replaces the frame and recomputes the dependent frame-basis cache before
the next evaluation. -/
def GeneratorModel.set_rotating_frame {n m : ℕ} (mdl : GeneratorModel n m)
    (fr : Option (RotatingFrame n)) : GeneratorModel n m :=
  mkGeneratorModel mdl.operators mdl.drift mdl.signals fr

/-- Modelled from the spec (section 4.5): evaluate the generator: compute
the signal coefficient vector, form the weighted operator sum plus drift
(using the cached frame-basis operators when `in_frame_basis`), then apply
the rotating-frame transform with matching basis flags. -/
def GeneratorModel.evaluate_generator {n m : ℕ} (mdl : GeneratorModel n m) (t : ℝ)
    (in_frame_basis : Bool) : Mat n :=
  let s : Fin m → ℂ := fun i => (((mdl.signals i).value t : ℝ) : ℂ)
  let M : Mat n :=
    if in_frame_basis then
      (∑ i, s i • mdl.operators_in_frame_basis i) + mdl.drift_in_frame_basis.getD 0
    else
      (∑ i, s i • mdl.operators i) + mdl.drift.getD 0
  generator_into_frame mdl.rotating_frame M t in_frame_basis in_frame_basis

/-- Modelled from the spec (sections 3 and 4.5): a `HamiltonianModel` is a
`GeneratorModel` whose stored operators (and drift) are the supplied
Hermitian operators pre-multiplied by `-i`; all frame arithmetic is the
`GeneratorModel` arithmetic on the pre-multiplied operators. -/
def HamiltonianModel {n m : ℕ} (operators : Fin m → Mat n) (drift : Option (Mat n))
    (signals : Fin m → Signal) (rotating_frame : Option (RotatingFrame n)) :
    GeneratorModel n m :=
  mkGeneratorModel (fun i => (-Complex.I) • operators i)
    (drift.map (fun D => (-Complex.I) • D)) signals rotating_frame

/-- Modelled from the spec and the test `_test_evaluate_generator`, which
checks `model.get_operators()` against the Hermitian operators as
supplied: `get_operators` undoes the `-i` pre-multiplication of the
stored operators. -/
def HamiltonianModel.get_operators {n m : ℕ} (mdl : GeneratorModel n m) : Fin m → Mat n :=
  fun i => Complex.I • mdl.operators i

/-- Modelled from the spec (section 6) and `test_solve_ode.py`: the ODE
method names accepted by the driver, as exercised by the test suite. -/
def supported_ode_methods : List String :=
  ["RK45", "RK23", "BDF", "DOP853", "jax_odeint"]

/-- The error type raised by the driver. -/
structure QiskitError where
  message : String

/-- The driver's result: lists of times and of states. -/
structure OdeResult (k : ℕ) where
  t : List ℝ
  y : List (Fin k → ℂ)

/-- Modelled from the spec (section 6): the ODE driver entry point.  The
integration routines themselves are out-of-scope black boxes (spec
section 1), abstracted as the `stepper` argument; `solve_ode` validates
the method name and fails synchronously with a
"not a supported ODE method" error for any unsupported method. -/
def solve_ode {k : ℕ}
    (stepper : (ℝ → (Fin k → ℂ) → Fin k → ℂ) → ℝ × ℝ → (Fin k → ℂ) → OdeResult k)
    (rhs : ℝ → (Fin k → ℂ) → Fin k → ℂ) (t_span : ℝ × ℝ) (y0 : Fin k → ℂ)
    (method : String) : Except QiskitError (OdeResult k) :=
  if method ∈ supported_ode_methods then Except.ok (stepper rhs t_span y0)
  else Except.error ⟨"Method " ++ method ++ " is not a supported ODE method."⟩

/-- Helper: with a trivial rotating frame the evaluation is the raw
weighted sum plus drift, for either basis flag. -/
theorem evaluate_generator_none_aux {n m : ℕ} (operators : Fin m → Mat n)
    (drift : Option (Mat n)) (signals : Fin m → Signal) (t : ℝ) (b : Bool) :
    (mkGeneratorModel operators drift signals none).evaluate_generator t b
      = (∑ i, (((signals i).value t : ℝ) : ℂ) • operators i) + drift.getD 0 := by
  cases b <;>
    cases drift <;>
      simp [GeneratorModel.evaluate_generator, mkGeneratorModel, generator_into_frame,
        generator_into_frame_basis]

/-- C2: with a trivial rotating frame (`none`), `evaluate_generator` is the
direct weighted sum of the operators by the signal values plus the drift,
with no rotation or basis change applied, for every time and either basis
flag. -/
theorem evaluate_generator_no_frame {n m : ℕ} (operators : Fin m → Mat n)
    (drift : Option (Mat n)) (signals : Fin m → Signal) (t : ℝ) (b : Bool) :
    (mkGeneratorModel operators drift signals none).evaluate_generator t b
      = (∑ i, (((signals i).value t : ℝ) : ℂ) • operators i) + drift.getD 0 :=
  evaluate_generator_none_aux operators drift signals t b

/-- C3: a `HamiltonianModel` is the `GeneratorModel` on the `-i`
pre-multiplied operators (identical frame arithmetic), and with a trivial
frame its evaluated generator is `-i` times the Hermitian combination
`Σᵢ sᵢ(t)·Hᵢ` (plus drift). -/
theorem hamiltonian_model_premultiplied {n m : ℕ} (operators : Fin m → Mat n)
    (drift : Option (Mat n)) (signals : Fin m → Signal)
    (rotating_frame : Option (RotatingFrame n)) (t : ℝ) (b : Bool) :
    (HamiltonianModel operators drift signals rotating_frame).evaluate_generator t b
        = (mkGeneratorModel (fun i => (-Complex.I) • operators i)
            (drift.map (fun D => (-Complex.I) • D)) signals rotating_frame).evaluate_generator t b
      ∧ (HamiltonianModel operators drift signals none).evaluate_generator t b
        = (-Complex.I) • ((∑ i, (((signals i).value t : ℝ) : ℂ) • operators i) + drift.getD 0) := by
  refine ⟨rfl, ?_⟩
  rw [show HamiltonianModel operators drift signals none
      = mkGeneratorModel (fun i => (-Complex.I) • operators i)
          (drift.map (fun D => (-Complex.I) • D)) signals none from rfl]
  rw [evaluate_generator_none_aux, smul_add, Finset.smul_sum]
  congr 1
  · exact Finset.sum_congr rfl fun i _ => smul_comm _ _ _
  · cases drift with
    | none => simp
    | some D => rfl

/-- C9: reassigning the rotating frame recomputes the frame-basis cache: an
evaluation after `set_rotating_frame` agrees with a freshly constructed
model carrying the new frame, whatever (stale) cache contents the model
held before the assignment, and repeated reassignment depends only on the
last frame assigned. -/
theorem set_rotating_frame_no_stale_cache {n m : ℕ} (mdl : GeneratorModel n m)
    (staleOps : Fin m → Mat n) (staleDrift : Option (Mat n))
    (f₁ f₂ : Option (RotatingFrame n)) (t : ℝ) (b : Bool) :
    (GeneratorModel.set_rotating_frame
          { mdl with operators_in_frame_basis := staleOps,
                     drift_in_frame_basis := staleDrift } f₂).evaluate_generator t b
        = (mkGeneratorModel mdl.operators mdl.drift mdl.signals f₂).evaluate_generator t b
      ∧ ((mdl.set_rotating_frame f₁).set_rotating_frame f₂).evaluate_generator t b
        = (mkGeneratorModel mdl.operators mdl.drift mdl.signals f₂).evaluate_generator t b :=
  ⟨rfl, rfl⟩

/-- C10: `get_operators` on a `HamiltonianModel` returns the operator list
exactly as supplied at construction (the Hermitian operators), not the
internally stored `-i` pre-multiplied ones. -/
theorem hamiltonian_get_operators_id {n m : ℕ} (operators : Fin m → Mat n)
    (drift : Option (Mat n)) (signals : Fin m → Signal)
    (rotating_frame : Option (RotatingFrame n)) :
    HamiltonianModel.get_operators (HamiltonianModel operators drift signals rotating_frame)
      = operators := by
  funext i
  show Complex.I • ((-Complex.I) • operators i) = operators i
  rw [smul_smul]
  simp

/-- C6: for every method string that is not a supported ODE method,
`solve_ode` fails synchronously with a `QiskitError` whose message
contains the substring "not a supported ODE method". -/
theorem solve_ode_unsupported_method {k : ℕ}
    (stepper : (ℝ → (Fin k → ℂ) → Fin k → ℂ) → ℝ × ℝ → (Fin k → ℂ) → OdeResult k)
    (rhs : ℝ → (Fin k → ℂ) → Fin k → ℂ) (t_span : ℝ × ℝ) (y0 : Fin k → ℂ)
    (method : String) (h : method ∉ supported_ode_methods) :
    ∃ e : QiskitError,
      solve_ode stepper rhs t_span y0 method = Except.error e
        ∧ ∃ s₁ s₂ : String, e.message = s₁ ++ "not a supported ODE method" ++ s₂ := by
  refine ⟨⟨"Method " ++ method ++ " is not a supported ODE method."⟩, ?_,
    "Method " ++ method ++ " is ", ".", ?_⟩
  · simp only [solve_ode, if_neg h]
  · show ("Method " ++ method ++ " is not a supported ODE method.")
        = "Method " ++ method ++ " is " ++ "not a supported ODE method" ++ "."
    have h2 : (" is " : String) ++ ("not a supported ODE method" ++ ".")
        = " is not a supported ODE method." := by decide
    simp only [String.append_assoc]
    rw [h2]

/-- C6 witness: applying the theorem at the concrete unsupported method
name "notamethod" used by `test_method_does_not_exist`. -/
theorem solve_ode_unsupported_method_witness :
    "notamethod" ∉ supported_ode_methods
      ∧ ∃ e : QiskitError,
          solve_ode (fun _ _ _ => OdeResult.mk [] []) (fun _ y => y) (0, 1)
              (fun _ : Fin 1 => 1) "notamethod" = Except.error e
            ∧ ∃ s₁ s₂ : String, e.message = s₁ ++ "not a supported ODE method" ++ s₂ :=
  ⟨by decide, solve_ode_unsupported_method _ _ _ _ _ (by decide)⟩

/-- C7: the value of a signal at `t` is the real part of
`envelope(t)·exp(i(2π·f·t + φ))`; for a real envelope this equals
`envelope(t)·cos(2π·f·t + φ)`; and a `SignalList` evaluated at `t`
returns the component values in the caller-supplied order. -/
theorem signal_value_carrier (s : Signal) (t : ℝ) (h : (s.envelope t).im = 0)
    (sl : SignalList) (i : ℕ) (hi : i < sl.length) :
    s.value t = (s.envelope t).re * Real.cos (2 * Real.pi * s.carrier_freq * t + s.phase)
      ∧ s.value t
          = (s.envelope t
              * Complex.exp (((2 * Real.pi * s.carrier_freq * t + s.phase : ℝ) : ℂ)
                  * Complex.I)).re
      ∧ (SignalList.values sl t)[i]? = some ((sl.get ⟨i, hi⟩).value t) := by
  refine ⟨?_, rfl, ?_⟩
  · rw [Signal.value, Signal.complex_value, Complex.mul_re, Complex.exp_ofReal_mul_I_re,
      Complex.exp_ofReal_mul_I_im, h]
    ring
  · simp [SignalList.values, hi]

/-- Conjugation by the frame eigenvector matrix is linear in the weighted
operator sum: the cached frame-basis operators reproduce the conjugated
sum. -/
theorem conj_weighted_sum {n m : ℕ} (V : Mat n) (s : Fin m → ℂ) (A : Fin m → Mat n)
    (B : Mat n) :
    (∑ i, s i • (Vᴴ * A i * V)) + Vᴴ * B * V
      = Vᴴ * ((∑ i, s i • A i) + B) * V := by
  rw [Matrix.mul_add, Matrix.add_mul, Matrix.mul_sum, Matrix.sum_mul]
  congr 1
  exact Finset.sum_congr rfl fun i _ => by rw [Matrix.mul_smul, Matrix.smul_mul]

/-- Unfolding of a frame-carrying model evaluation with
`in_frame_basis = true`: the cached frame-basis operators produce the
frame-basis conjugation of the weighted sum, rotated and shifted by the
frame diagonal. -/
theorem evaluate_generator_some_true {n m : ℕ} (ops : Fin m → Mat n) (drift : Option (Mat n))
    (sigs : Fin m → Signal) (f : RotatingFrame n) (t : ℝ) :
    (mkGeneratorModel ops drift sigs (some f)).evaluate_generator t true
      = f.rotation_diag t
          * (f.frame_basisᴴ * ((∑ i, (((sigs i).value t : ℝ) : ℂ) • ops i) + drift.getD 0)
              * f.frame_basis)
          * (f.rotation_diag t)ᴴ
        - f.frame_diag_matrix := by
  have hM : (∑ i, (((sigs i).value t : ℝ) : ℂ) • (f.frame_basisᴴ * ops i * f.frame_basis))
      + ((drift.map (generator_into_frame_basis (some f))).getD 0)
      = f.frame_basisᴴ * ((∑ i, (((sigs i).value t : ℝ) : ℂ) • ops i) + drift.getD 0)
          * f.frame_basis := by
    rw [← conj_weighted_sum]
    congr 1
    cases drift with
    | none => simp
    | some D => rfl
  simp only [GeneratorModel.evaluate_generator, mkGeneratorModel, generator_into_frame,
    generator_into_frame_basis, if_true]
  rw [hM]

/-- Unfolding of a frame-carrying model evaluation with
`in_frame_basis = false`: conjugate into the eigenbasis, rotate, shift,
conjugate back. -/
theorem evaluate_generator_some_false {n m : ℕ} (ops : Fin m → Mat n) (drift : Option (Mat n))
    (sigs : Fin m → Signal) (f : RotatingFrame n) (t : ℝ) :
    (mkGeneratorModel ops drift sigs (some f)).evaluate_generator t false
      = f.frame_basis
          * (f.rotation_diag t
              * (f.frame_basisᴴ * ((∑ i, (((sigs i).value t : ℝ) : ℂ) • ops i) + drift.getD 0)
                  * f.frame_basis)
              * (f.rotation_diag t)ᴴ
            - f.frame_diag_matrix)
          * f.frame_basisᴴ :=
  rfl

/-- C4: for every time `t` and every model carrying a rotating frame,
evaluating with `in_frame_basis = true` and converting the result out of
the frame basis equals evaluating with `in_frame_basis = false` directly:
basis conversion commutes with generator evaluation (exactly, hence
within the 1e-9 tolerance). -/
theorem evaluate_in_frame_basis_consistent {n m : ℕ} (ops : Fin m → Mat n)
    (drift : Option (Mat n)) (sigs : Fin m → Signal) (f : RotatingFrame n) (t : ℝ) :
    generator_out_of_frame_basis (some f)
        ((mkGeneratorModel ops drift sigs (some f)).evaluate_generator t true)
      = (mkGeneratorModel ops drift sigs (some f)).evaluate_generator t false := by
  rw [evaluate_generator_some_true, evaluate_generator_some_false]
  rfl

/-- Scalar multiples pass through a conjugated diagonal. -/
theorem smul_conj_diagonal {n : ℕ} (V : Mat n) (c : ℂ) (w : Fin n → ℂ) :
    c • (V * Matrix.diagonal w * Vᴴ) = V * Matrix.diagonal (fun k => c * w k) * Vᴴ := by
  rw [show (fun k => c * w k) = c • w from rfl, Matrix.diagonal_smul, Matrix.mul_smul,
    Matrix.smul_mul]

/-- The matrix exponential of a diagonal complex matrix is the diagonal of
elementwise scalar exponentials. -/
theorem exp_diagonal_complex {n : ℕ} (w : Fin n → ℂ) :
    NormedSpace.exp ℂ (Matrix.diagonal w) = Matrix.diagonal (fun k => Complex.exp (w k)) := by
  have hw : NormedSpace.exp ℂ w = fun k => Complex.exp (w k) := by
    funext k
    rw [Pi.coe_exp, ← Complex.exp_eq_exp_ℂ]
  rw [Matrix.exp_diagonal, hw]

/-- The matrix exponential of a unitarily conjugated diagonal matrix is the
conjugated diagonal of elementwise scalar exponentials. -/
theorem exp_unitary_conj_diagonal {n : ℕ} (V : Mat n) (hV : Vᴴ * V = 1) (w : Fin n → ℂ) :
    NormedSpace.exp ℂ (V * Matrix.diagonal w * Vᴴ)
      = V * Matrix.diagonal (fun k => Complex.exp (w k)) * Vᴴ := by
  have hV2 : V * Vᴴ = 1 := Matrix.mul_eq_one_comm.mp hV
  have hU : IsUnit V := ⟨⟨V, Vᴴ, hV2, hV⟩, rfl⟩
  have hinv : V⁻¹ = Vᴴ := Matrix.inv_eq_right_inv hV2
  rw [← hinv, Matrix.exp_conj ℂ V (Matrix.diagonal w) hU, exp_diagonal_complex, hinv]

/-- Closed form of a frame-carrying model evaluation in the original basis:
the weighted operator sum conjugated by the matrix exponentials
`exp(-t·F)`, `exp(t·F)` of the frame operator `F = -i·H`, minus `F`. -/
theorem evaluate_generator_closed_form {n m : ℕ} (ops : Fin m → Mat n) (drift : Option (Mat n))
    (sigs : Fin m → Signal) (d : Fin n → ℝ) (V : Mat n) (hV : Vᴴ * V = 1) (t : ℝ) :
    (mkGeneratorModel ops drift sigs (some ⟨d, V⟩)).evaluate_generator t false
      = NormedSpace.exp ℂ
            ((-(t : ℂ)) • (V * Matrix.diagonal (fun k => -Complex.I * ((d k : ℝ) : ℂ)) * Vᴴ))
          * ((∑ i, (((sigs i).value t : ℝ) : ℂ) • ops i) + drift.getD 0)
          * NormedSpace.exp ℂ
              (((t : ℝ) : ℂ) • (V * Matrix.diagonal (fun k => -Complex.I * ((d k : ℝ) : ℂ)) * Vᴴ))
        - V * Matrix.diagonal (fun k => -Complex.I * ((d k : ℝ) : ℂ)) * Vᴴ := by
  have hexp : ∀ c : ℂ,
      NormedSpace.exp ℂ (c • (V * Matrix.diagonal (fun k => -Complex.I * ((d k : ℝ) : ℂ)) * Vᴴ))
        = V * Matrix.diagonal (fun k => Complex.exp (c * (-Complex.I * ((d k : ℝ) : ℂ)))) * Vᴴ :=
    fun c => by rw [smul_conj_diagonal, exp_unitary_conj_diagonal V hV]
  have harg1 : (fun k => Complex.exp ((-(t : ℂ)) * (-Complex.I * ((d k : ℝ) : ℂ))))
      = fun k => Complex.exp (Complex.I * ((d k : ℝ) : ℂ) * ((t : ℝ) : ℂ)) := by
    funext k
    congr 1
    ring
  have hstar : (star (fun k => Complex.exp (Complex.I * ((d k : ℝ) : ℂ) * ((t : ℝ) : ℂ)))
        : Fin n → ℂ)
      = fun k => Complex.exp (((t : ℝ) : ℂ) * (-Complex.I * ((d k : ℝ) : ℂ))) := by
    funext k
    rw [Pi.star_apply, Complex.star_def, ← Complex.exp_conj]
    congr 1
    simp only [RingHom.map_mul, Complex.conj_I, Complex.conj_ofReal]
    ring
  have hexp1 : NormedSpace.exp ℂ
      ((-(t : ℂ)) • (V * Matrix.diagonal (fun k => -Complex.I * ((d k : ℝ) : ℂ)) * Vᴴ))
        = V * (RotatingFrame.mk d V).rotation_diag t * Vᴴ := by
    rw [hexp (-(t : ℂ)), harg1]
    rfl
  have hexp2 : NormedSpace.exp ℂ
      (((t : ℝ) : ℂ) • (V * Matrix.diagonal (fun k => -Complex.I * ((d k : ℝ) : ℂ)) * Vᴴ))
        = V * ((RotatingFrame.mk d V).rotation_diag t)ᴴ * Vᴴ := by
    rw [hexp ((t : ℝ) : ℂ), RotatingFrame.rotation_diag, Matrix.diagonal_conjTranspose, hstar]
  rw [evaluate_generator_some_false, hexp1, hexp2, Matrix.mul_sub, Matrix.sub_mul]
  congr 1
  simp only [Matrix.mul_assoc]

/-- C1 (amended): for every Hermitian frame operator `H`, given through an
eigendecomposition `H = V·diag(d)·V†` with `V` unitary (frame
`F = -i·H = V·diag(-i·d)·V†`), every list of Hermitian operators with
coefficient signals, and every time `t`, evaluating the Hamiltonian
model's generator in the original basis with the rotating frame set
returns `U(t)†·G(t)·U(t) - F = exp(i·H·t)·G(t)·exp(-i·H·t) - F`, where
`U(t) = exp(F·t)` and `G(t) = Σᵢ sᵢ(t)·(-i·Opᵢ)` — the conjugation
direction opposite to the claim's `U(t)·G(t)·U(t)† - F`. -/
theorem hamiltonian_rotating_frame_closed_form {n m : ℕ} (d : Fin n → ℝ) (V : Mat n)
    (hV : Vᴴ * V = 1) (ops : Fin m → Mat n) (hherm : ∀ i, (ops i)ᴴ = ops i)
    (sigs : Fin m → Signal) (t : ℝ) :
    (HamiltonianModel ops none sigs (some ⟨d, V⟩)).evaluate_generator t false
      = NormedSpace.exp ℂ
            ((-(t : ℂ)) • (V * Matrix.diagonal (fun k => -Complex.I * ((d k : ℝ) : ℂ)) * Vᴴ))
          * (∑ i, (((sigs i).value t : ℝ) : ℂ) • ((-Complex.I) • ops i))
          * NormedSpace.exp ℂ
              (((t : ℝ) : ℂ) • (V * Matrix.diagonal (fun k => -Complex.I * ((d k : ℝ) : ℂ)) * Vᴴ))
        - V * Matrix.diagonal (fun k => -Complex.I * ((d k : ℝ) : ℂ)) * Vᴴ := by
  have h := evaluate_generator_closed_form (fun i => (-Complex.I) • ops i)
    (Option.map (fun D => (-Complex.I) • D) (none : Option (Mat n))) sigs d V hV t
  simpa [HamiltonianModel] using h

/-- C1 witness: the amended theorem applied to the concrete frame
`H = diag(1, -1)` (decomposition `d = (1, -1)`, `V = 1`), the Hermitian
operator `X`, a constant unit signal, and `t = 1`. -/
theorem hamiltonian_rotating_frame_closed_form_witness :
    ((1 : Mat 2)ᴴ * (1 : Mat 2) = 1)
      ∧ (∀ i : Fin 1, ((fun _ : Fin 1 => (!![0, 1; 1, 0] : Mat 2)) i)ᴴ
            = (fun _ : Fin 1 => (!![0, 1; 1, 0] : Mat 2)) i)
      ∧ (HamiltonianModel (fun _ : Fin 1 => (!![0, 1; 1, 0] : Mat 2)) none
            (fun _ => Signal.mk (fun _ => 1) 0 0)
            (some ⟨![1, -1], (1 : Mat 2)⟩)).evaluate_generator 1 false
          = NormedSpace.exp ℂ
                ((-((1 : ℝ) : ℂ)) • ((1 : Mat 2)
                    * Matrix.diagonal (fun k => -Complex.I * ((![1, -1] k : ℝ) : ℂ))
                    * (1 : Mat 2)ᴴ))
              * (∑ i, ((((fun _ : Fin 1 => Signal.mk (fun _ => 1) 0 0) i).value 1 : ℝ) : ℂ)
                  • ((-Complex.I) • (fun _ : Fin 1 => (!![0, 1; 1, 0] : Mat 2)) i))
              * NormedSpace.exp ℂ
                  ((((1 : ℝ) : ℝ) : ℂ) • ((1 : Mat 2)
                      * Matrix.diagonal (fun k => -Complex.I * ((![1, -1] k : ℝ) : ℂ))
                      * (1 : Mat 2)ᴴ))
            - (1 : Mat 2) * Matrix.diagonal (fun k => -Complex.I * ((![1, -1] k : ℝ) : ℂ))
                * (1 : Mat 2)ᴴ := by
  have h1 : (1 : Mat 2)ᴴ * (1 : Mat 2) = 1 := by simp
  have h2 : ∀ i : Fin 1, ((fun _ : Fin 1 => (!![0, 1; 1, 0] : Mat 2)) i)ᴴ
      = (fun _ : Fin 1 => (!![0, 1; 1, 0] : Mat 2)) i := by
    intro i
    ext j k
    fin_cases j <;> fin_cases k <;> simp [Matrix.conjTranspose_apply]
  exact ⟨h1, h2, hamiltonian_rotating_frame_closed_form ![1, -1] (1 : Mat 2) h1 _ h2
    (fun _ : Fin 1 => Signal.mk (fun _ => 1) 0 0) 1⟩

/-- C1 counterexample: at the concrete Hamiltonian model with Hermitian
frame operator `H = diag(1, -1)` (frame `F = -i·H = diag(-i, i)`), a
single Hermitian operator `X` with a constant unit signal, and `t = π/4`,
the evaluated generator is not the claim's `U(t)·G(t)·U(t)† - F` with
`U(t) = exp(F·t)` and `G(t) = Σᵢ sᵢ(t)·(-i·Opᵢ)`: the two sides have
`(0,1)` entries `1` and `-1`. -/
theorem hamiltonian_rotating_frame_claim_counterexample :
    ¬ ((HamiltonianModel (fun _ : Fin 1 => (!![0, 1; 1, 0] : Mat 2)) none
          (fun _ => Signal.mk (fun _ => 1) 0 0)
          (some (RotatingFrame.ofDiag ![1, -1]))).evaluate_generator (Real.pi / 4) false
        = NormedSpace.exp ℂ
              (((Real.pi / 4 : ℝ) : ℂ) • Matrix.diagonal ![-Complex.I, Complex.I])
            * (∑ i, ((((fun _ : Fin 1 => Signal.mk (fun _ => 1) 0 0) i).value
                  (Real.pi / 4) : ℝ) : ℂ)
                • ((-Complex.I) • (fun _ : Fin 1 => (!![0, 1; 1, 0] : Mat 2)) i))
            * (NormedSpace.exp ℂ
                (((Real.pi / 4 : ℝ) : ℂ) • Matrix.diagonal ![-Complex.I, Complex.I]))ᴴ
          - Matrix.diagonal ![-Complex.I, Complex.I]) := by
  have hs : (Signal.mk (fun _ => (1 : ℂ)) 0 0).value (Real.pi / 4) = 1 := by
    simp [Signal.value, Signal.complex_value]
  have hinner : (starRingEnd ℂ) (Complex.I * ((Real.pi : ℂ) / 4))
      = -(Complex.I * ((Real.pi : ℂ) / 4)) := by
    simp [map_ofNat]
  have hinner2 : (starRingEnd ℂ) (((Real.pi : ℂ) / 4) * Complex.I)
      = -(((Real.pi : ℂ) / 4) * Complex.I) := by
    simp [map_ofNat]
  have hsq : Complex.exp (Complex.I * ((Real.pi : ℂ) / 4))
      * Complex.exp (Complex.I * ((Real.pi : ℂ) / 4)) = Complex.I := by
    rw [← Complex.exp_add]
    have h4 : Complex.I * ((Real.pi : ℂ) / 4) + Complex.I * ((Real.pi : ℂ) / 4)
        = ((Real.pi / 2 : ℝ) : ℂ) * Complex.I := by
      push_cast
      ring
    rw [h4, Complex.exp_mul_I, ← Complex.ofReal_cos, ← Complex.ofReal_sin,
      Real.cos_pi_div_two, Real.sin_pi_div_two]
    simp
  have hL : (HamiltonianModel (fun _ : Fin 1 => (!![0, 1; 1, 0] : Mat 2)) none
        (fun _ => Signal.mk (fun _ => 1) 0 0)
        (some (RotatingFrame.ofDiag ![1, -1]))).evaluate_generator (Real.pi / 4) false 0 1
      = 1 := by
    rw [show (HamiltonianModel (fun _ : Fin 1 => (!![0, 1; 1, 0] : Mat 2)) none
          (fun _ => Signal.mk (fun _ => 1) 0 0) (some (RotatingFrame.ofDiag ![1, -1])))
        = mkGeneratorModel (fun _ : Fin 1 => (-Complex.I) • (!![0, 1; 1, 0] : Mat 2)) none
            (fun _ => Signal.mk (fun _ => 1) 0 0) (some (RotatingFrame.mk ![1, -1] 1))
        from rfl]
    rw [evaluate_generator_some_false]
    simp only [Matrix.conjTranspose_one, one_mul, mul_one, Matrix.sub_apply,
      RotatingFrame.rotation_diag, RotatingFrame.frame_diag_matrix,
      Matrix.diagonal_conjTranspose, Matrix.mul_diagonal, Matrix.diagonal_mul,
      Fin.sum_univ_one, Option.getD_none, add_zero, hs, Matrix.add_apply,
      Matrix.smul_apply, smul_eq_mul, Pi.star_apply]
    norm_num
    rw [← hinner, Complex.exp_conj, Complex.conj_conj]
    rw [show Complex.exp (Complex.I * ((Real.pi : ℂ) / 4)) * Complex.I
          * Complex.exp (Complex.I * ((Real.pi : ℂ) / 4))
        = Complex.I * (Complex.exp (Complex.I * ((Real.pi : ℂ) / 4))
            * Complex.exp (Complex.I * ((Real.pi : ℂ) / 4))) from by ring]
    rw [hsq, Complex.I_mul_I]
    norm_num
  intro h
  have hentry := Matrix.ext_iff.mpr h 0 1
  rw [hL] at hentry
  have hR : (NormedSpace.exp ℂ
          (((Real.pi / 4 : ℝ) : ℂ) • Matrix.diagonal ![-Complex.I, Complex.I])
        * (∑ i, ((((fun _ : Fin 1 => Signal.mk (fun _ => 1) 0 0) i).value
              (Real.pi / 4) : ℝ) : ℂ)
            • ((-Complex.I) • (fun _ : Fin 1 => (!![0, 1; 1, 0] : Mat 2)) i))
        * (NormedSpace.exp ℂ
            (((Real.pi / 4 : ℝ) : ℂ) • Matrix.diagonal ![-Complex.I, Complex.I]))ᴴ
      - Matrix.diagonal ![-Complex.I, Complex.I]) 0 1 = -1 := by
    rw [show ((Real.pi / 4 : ℝ) : ℂ) • Matrix.diagonal ![-Complex.I, Complex.I]
        = Matrix.diagonal (((Real.pi / 4 : ℝ) : ℂ) • ![-Complex.I, Complex.I])
        from (Matrix.diagonal_smul _ _).symm]
    rw [exp_diagonal_complex]
    simp only [Matrix.sub_apply, Matrix.diagonal_conjTranspose, Matrix.mul_diagonal,
      Matrix.diagonal_mul, Fin.sum_univ_one, hs, Matrix.smul_apply, smul_eq_mul,
      Pi.smul_apply, Pi.star_apply]
    norm_num
    rw [← Complex.exp_conj, hinner2]
    rw [show Complex.exp (-((Real.pi : ℂ) / 4 * Complex.I)) * Complex.I
          * Complex.exp (-((Real.pi : ℂ) / 4 * Complex.I))
        = Complex.I * (Complex.exp (-((Real.pi : ℂ) / 4 * Complex.I))
            * Complex.exp (-((Real.pi : ℂ) / 4 * Complex.I))) from by ring]
    have hsq2 : Complex.exp (-((Real.pi : ℂ) / 4 * Complex.I))
        * Complex.exp (-((Real.pi : ℂ) / 4 * Complex.I)) = -Complex.I := by
      rw [← Complex.exp_add]
      have h4b : -((Real.pi : ℂ) / 4 * Complex.I) + -((Real.pi : ℂ) / 4 * Complex.I)
          = ((-(Real.pi / 2) : ℝ) : ℂ) * Complex.I := by
        push_cast
        ring
      rw [h4b, Complex.exp_mul_I, ← Complex.ofReal_cos, ← Complex.ofReal_sin,
        Real.cos_neg, Real.sin_neg, Real.cos_pi_div_two, Real.sin_pi_div_two]
      simp
    rw [hsq2, mul_neg, Complex.I_mul_I]
    norm_num
  rw [hR] at hentry
  exact absurd hentry (by norm_num)

/-- C8: a model whose rotating frame is built from the 1-D vector `v`
evaluates identically to one whose frame is built from the 2-D diagonal
matrix `diag(v)`, through any unitary eigendecomposition
`diag(v) = V·diag(d)·V†` the diagonalization routine may produce: the 1-D
path is an optimization with the same semantics. -/
theorem diag_vector_frame_equiv {n m : ℕ} (ops : Fin m → Mat n) (drift : Option (Mat n))
    (sigs : Fin m → Signal) (v d : Fin n → ℝ) (V : Mat n) (hV : Vᴴ * V = 1)
    (hdec : Matrix.diagonal (fun k => ((v k : ℝ) : ℂ))
        = V * Matrix.diagonal (fun k => ((d k : ℝ) : ℂ)) * Vᴴ) (t : ℝ) :
    (mkGeneratorModel ops drift sigs (some (RotatingFrame.ofDiag v))).evaluate_generator t false
      = (mkGeneratorModel ops drift sigs (some ⟨d, V⟩)).evaluate_generator t false := by
  have h1 : (1 : Mat n)ᴴ * (1 : Mat n) = 1 := by simp
  have hF : (1 : Mat n) * Matrix.diagonal (fun k => -Complex.I * ((v k : ℝ) : ℂ)) * (1 : Mat n)ᴴ
      = V * Matrix.diagonal (fun k => -Complex.I * ((d k : ℝ) : ℂ)) * Vᴴ := by
    calc (1 : Mat n) * Matrix.diagonal (fun k => -Complex.I * ((v k : ℝ) : ℂ)) * (1 : Mat n)ᴴ
        = Matrix.diagonal (fun k => -Complex.I * ((v k : ℝ) : ℂ)) := by simp
      _ = (-Complex.I) • Matrix.diagonal (fun k => ((v k : ℝ) : ℂ)) := by
          rw [← Matrix.diagonal_smul]
          rfl
      _ = (-Complex.I) • (V * Matrix.diagonal (fun k => ((d k : ℝ) : ℂ)) * Vᴴ) := by rw [hdec]
      _ = V * Matrix.diagonal (fun k => -Complex.I * ((d k : ℝ) : ℂ)) * Vᴴ :=
          smul_conj_diagonal V (-Complex.I) _
  rw [show RotatingFrame.ofDiag v = RotatingFrame.mk v (1 : Mat n) from rfl]
  rw [evaluate_generator_closed_form ops drift sigs v (1 : Mat n) h1 t,
    evaluate_generator_closed_form ops drift sigs d V hV t, hF]

/-- C8 witness: the theorem applied with `v = d = (1, -1)` and the identity
eigenvector matrix, on a concrete one-operator model. -/
theorem diag_vector_frame_equiv_witness :
    ((1 : Mat 2)ᴴ * (1 : Mat 2) = 1)
      ∧ (Matrix.diagonal (fun k => ((![1, -1] k : ℝ) : ℂ))
          = (1 : Mat 2) * Matrix.diagonal (fun k => ((![1, -1] k : ℝ) : ℂ)) * (1 : Mat 2)ᴴ)
      ∧ (mkGeneratorModel (fun _ : Fin 1 => (!![0, 1; 1, 0] : Mat 2)) none
            (fun _ => Signal.mk (fun _ => 1) 0 0)
            (some (RotatingFrame.ofDiag ![1, -1]))).evaluate_generator 1 false
          = (mkGeneratorModel (fun _ : Fin 1 => (!![0, 1; 1, 0] : Mat 2)) none
              (fun _ => Signal.mk (fun _ => 1) 0 0)
              (some ⟨![1, -1], (1 : Mat 2)⟩)).evaluate_generator 1 false := by
  have h1 : (1 : Mat 2)ᴴ * (1 : Mat 2) = 1 := by simp
  have h2 : Matrix.diagonal (fun k => ((![1, -1] k : ℝ) : ℂ))
      = (1 : Mat 2) * Matrix.diagonal (fun k => ((![1, -1] k : ℝ) : ℂ)) * (1 : Mat 2)ᴴ := by
    simp
  exact ⟨h1, h2, diag_vector_frame_equiv _ none _ ![1, -1] ![1, -1] (1 : Mat 2) h1 h2 1⟩

/-- C7 witness: the theorem applied to a concrete constant real-envelope
signal and the singleton list containing it. -/
theorem signal_value_carrier_witness :
    ((Signal.mk (fun _ => 2) 1 0).envelope 1).im = 0
      ∧ 0 < ([Signal.mk (fun _ => 2) 1 0] : SignalList).length
      ∧ (Signal.mk (fun _ => 2) 1 0).value 1
          = ((Signal.mk (fun _ => 2) 1 0).envelope 1).re
              * Real.cos (2 * Real.pi * (Signal.mk (fun _ => 2) 1 0).carrier_freq * 1
                  + (Signal.mk (fun _ => 2) 1 0).phase) := by
  refine ⟨by simp, by simp, ?_⟩
  exact (signal_value_carrier (Signal.mk (fun _ => 2) 1 0) 1 (by simp)
    [Signal.mk (fun _ => 2) 1 0] 0 (by simp)).1
